import Mathlib

/-!
Verification of the distributional (C51 / Rainbow) learning core of
`algorithms/rainbow/agent.py` against its design document.

The agent's numeric tensors are embedded as rational numbers (`ℚ`): the
claims about the projection are claims of real arithmetic ("exactly in real
arithmetic; up to 1e-5 in floating point"), and every operation involved
(linspace, clamp, floor, ceil, scatter-add, dot products) is exact on `ℚ`.
Batches are per-element: each claim quantifies over batch elements `j`, and
the vectorized torch code applies the same scalar formulas elementwise, with
the `offset = j * atoms` trick writing row `j` of the flattened buffer.
-/

namespace RainbowAgent

/-- `torch.Tensor.clamp(min=lo, max=hi)` elementwise: `min (max x lo) hi`. -/
def clampQ (lo hi x : ℚ) : ℚ := min (max x lo) hi

/-- Executable floor on `ℚ`, `b.floor()` in torch (round toward `-∞`). -/
def qfloor (x : ℚ) : ℤ := x.num / (x.den : ℤ)

/-- Executable ceiling on `ℚ`, `b.ceil()` in torch (round toward `+∞`). -/
def qceil (x : ℚ) : ℤ := -qfloor (-x)

theorem qfloor_eq (x : ℚ) : qfloor x = ⌊x⌋ := Rat.floor_def.symm

theorem qceil_eq (x : ℚ) : qceil x = ⌈x⌉ := by
  rw [qceil, qfloor_eq, Int.floor_neg, neg_neg]

/-- `torch.linspace(a, b, n)`: `n` evenly spaced points from `a` to `b`
inclusive.  For `n = 1` torch returns `[a]`; for `n ≥ 2` the step is
`(b - a)/(n - 1)`. -/
def linspace (a b : ℚ) (n : ℕ) : List ℚ :=
  if n = 1 then [a]
  else (List.range n).map (fun (i : ℕ) => a + (i : ℚ) * (b - a) / ((n : ℚ) - 1))

theorem linspace_length (a b : ℚ) (n : ℕ) : (linspace a b n).length = n := by
  unfold linspace
  split
  · simp_all
  · simp

theorem linspace_getD (a b : ℚ) (n : ℕ) (hn : n ≠ 1) (i : ℕ) (hi : i < n) :
    (linspace a b n).getD i 0 = a + (i : ℚ) * (b - a) / ((n : ℚ) - 1) := by
  unfold linspace
  rw [if_neg hn]
  rw [List.getD_eq_getElem?_getD, List.getElem?_map, List.getElem?_range hi]
  rfl

/-- The fixed support-grid parameters of the agent (`args.num_atoms`,
`args.V_min`, `args.V_max` in `Agent.__init__`). -/
structure SupportCfg where
  atoms : ℕ
  vmin : ℚ
  vmax : ℚ

/-- `self.delta_z = (args.V_max - args.V_min) / (self.atoms - 1)`. -/
def SupportCfg.deltaZ (cfg : SupportCfg) : ℚ :=
  (cfg.vmax - cfg.vmin) / ((cfg.atoms : ℚ) - 1)

/-- `self.support = torch.linspace(args.V_min, args.V_max, self.atoms)`. -/
def SupportCfg.supportZ (cfg : SupportCfg) : List ℚ :=
  linspace cfg.vmin cfg.vmax cfg.atoms

/-- Python runtime error raised at agent construction. -/
inductive PyErr where
  | zeroDivision
deriving DecidableEq

/-- The support grid computed in `Agent.__init__` (lines 38-39). -/
structure SupportGrid where
  values : List ℚ
  dz : ℚ
deriving DecidableEq

/-- Support-grid construction, lines 38-39 of `Agent.__init__`:
`torch.linspace(V_min, V_max, atoms)` followed by
`delta_z = (V_max - V_min) / (atoms - 1)`.  The source performs no
parameter validation; the only failure mode is Python's
`ZeroDivisionError` when `atoms - 1 == 0`.  Pure and deterministic. -/
def makeSupport (numAtoms : ℕ) (vmin vmax : ℚ) : Except PyErr SupportGrid :=
  if numAtoms = 1 then .error .zeroDivision
  else .ok ⟨linspace vmin vmax numAtoms, (vmax - vmin) / ((numAtoms : ℚ) - 1)⟩

/-! ## The Bellman backup and projection (`Agent.learn`, lines 120-155)

All quantities are per batch element `j` and per source atom index `i`;
the torch code computes them for the whole batch at once with identical
elementwise formulas. -/

/-- One coordinate of `Tz = returns + nonterminals * discount**n * support`,
then `Tz.clamp(min=Vmin, max=Vmax)` (lines 123-126).  `discPow` stands for
the scalar `discount ** n`. -/
def TzAtom (vmin vmax ret nonterm discPow z : ℚ) : ℚ :=
  clampQ vmin vmax (ret + nonterm * discPow * z)

/-- One coordinate of `b = (Tz - Vmin) / delta_z` (line 131). -/
def bAtom (cfg : SupportCfg) (ret nonterm discPow z : ℚ) : ℚ :=
  (TzAtom cfg.vmin cfg.vmax ret nonterm discPow z - cfg.vmin) / cfg.deltaZ

/-- The lower index after the degenerate-case fix, lines 132 and 134:
`l = b.floor()`, then `l[(u > 0) * (l == u)] -= 1`. -/
def lAdj (b : ℚ) : ℤ :=
  if 0 < qceil b ∧ qfloor b = qceil b then qfloor b - 1 else qfloor b

/-- The upper index after the degenerate-case fix, lines 132 and 135:
`u = b.ceil()`, then `u[(l < (self.atoms - 1)) * (l == u)] += 1`, where `l`
is already the adjusted value from line 134. -/
def uAdj (atoms : ℕ) (b : ℚ) : ℤ :=
  if lAdj b < (atoms : ℤ) - 1 ∧ lAdj b = qceil b then qceil b + 1
  else qceil b

/-- Mass deposited at slot `l`: `pns_a * (u.float() - b)` (line 153); `u` is
the adjusted upper index. -/
def contribL (atoms : ℕ) (b p : ℚ) : ℚ := p * ((uAdj atoms b : ℚ) - b)

/-- Mass deposited at slot `u`: `pns_a * (b - l.float())` (line 155); `l` is
the adjusted lower index. -/
def contribU (b p : ℚ) : ℚ := p * (b - (lAdj b : ℚ))

/-- In-place accumulate at one index of the per-element mass buffer (one
scalar slot of `index_add_`). -/
def addAt (m : List ℚ) (i : ℕ) (v : ℚ) : List ℚ := m.set i (m.getD i 0 + v)

/-- `index_add_(0, idxs, vals)`: accumulate every (index, value) pair. -/
def foldAdd (m : List ℚ) (pairs : List (ℕ × ℚ)) : List ℚ :=
  pairs.foldl (fun acc p => addAt acc p.1 p.2) m

/-- One batch element's slice of lines 148-155: `m = zeros(atoms)`, then
`m.index_add_(0, l, pns_a * (u - b))` and `m.index_add_(0, u, pns_a * (b - l))`.
`bs` is the row of projected coordinates `b`, `ps` the row `pns_a`. -/
def scatterRow (atoms : ℕ) (bs ps : List ℚ) : List ℚ :=
  foldAdd
    (foldAdd (List.replicate atoms 0)
      ((bs.zip ps).map fun bp => ((lAdj bp.1).toNat, contribL atoms bp.1 bp.2)))
    ((bs.zip ps).map fun bp => ((uAdj atoms bp.1).toNat, contribU bp.1 bp.2))

/-- The full projection of one batch element (lines 123-155): Bellman backup
of every support atom, clamp, continuous index, degenerate fix, scatter-add
of the selected target-network row `ps`. -/
def projectRow (cfg : SupportCfg) (ret nonterm discPow : ℚ) (ps : List ℚ) :
    List ℚ :=
  scatterRow cfg.atoms
    (cfg.supportZ.map fun z => bAtom cfg ret nonterm discPow z) ps

/-! ## Action selection (`Agent.learn` lines 102-119, `Agent.act` line 70,
`Agent.evaluate_q` line 177)

A network output for one state is a list of per-action rows, each row a
categorical distribution over the support atoms
(`probs : List (List ℚ)`, indexed action-major like the `[batch, action,
atom]` tensors). -/

/-- Expected value of one action: `(support * p).sum(-1)`, i.e.
`Σ_i z_i · p_i` (the elementwise product plus reduction the code applies as
`(self.support.expand_as(pns) * pns).sum(2)`). -/
def expectedQ (s row : List ℚ) : ℚ := ((s.zip row).map fun p => p.1 * p.2).sum

/-- The per-action expected values `Q(a)` of one state. -/
def actionQs (s : List ℚ) (probs : List (List ℚ)) : List ℚ :=
  probs.map (expectedQ s)

/-- `torch.argmax` along a row: the index of the first occurrence of the
maximal value (ties broken by lowest index). -/
def argmaxIdx (xs : List ℚ) : ℕ :=
  xs.findIdx fun x => xs.all fun y => y ≤ x

/-- Lines 102-119 of `learn`: the action `argmax_indices_ns` is the argmax
of the online net's expected values over the next state, and the row
projected is the target net's distribution at that action:
`pns_a = pns_target[range(batch), argmax_indices_ns]`. -/
def selectTargetDist (s : List ℚ) (pOnline pTarget : List (List ℚ)) :
    List ℚ :=
  pTarget.getD (argmaxIdx (actionQs s pOnline)) []

/-- Maximum of a nonempty row, `.max(1)[0]` in torch. -/
def listMax : List ℚ → ℚ
  | [] => 0
  | x :: xs => xs.foldl max x

/-- `Agent.act` line 70:
`(online_net(state) * support).sum(2).argmax(1)` for a single state. -/
def act (s : List ℚ) (probs : List (List ℚ)) : ℕ :=
  argmaxIdx (actionQs s probs)

/-- `Agent.evaluate_q` line 177:
`(online_net(state) * support).sum(2).max(1)[0]` for a single state. -/
def evaluateQ (s : List ℚ) (probs : List (List ℚ)) : ℚ :=
  listMax (actionQs s probs)

/-! ## Loss, backpropagated quantity and priority update
(`Agent.learn` lines 157-164) -/

/-- One element of `loss = -torch.sum(m * log_ps_a, 1)` (line 158):
`m` is the projected target row, `logp` the online log-probability row at
the taken action. -/
def lossRow (m logp : List ℚ) : ℚ := -((m.zip logp).map fun p => p.1 * p.2).sum

/-- The per-sample loss vector over the batch. -/
def lossVec (ms logps : List (List ℚ)) : List ℚ :=
  (ms.zip logps).map fun p => lossRow p.1 p.2

/-- Line 164: `mem.update_priorities(idxs, loss.detach().cpu().numpy())` —
the raw per-sample losses are passed, with no weighting applied. -/
def prioritiesOut (ms logps : List (List ℚ)) : List ℚ := lossVec ms logps

/-- `.mean()` of a tensor viewed as a list. -/
def meanQ (xs : List ℚ) : ℚ := xs.sum / (xs.length : ℚ)

/-- Line 161: the scalar handed to `backward`, `(weights * loss).mean()`. -/
def backpropScalar (ws : List ℚ) (ms logps : List (List ℚ)) : ℚ :=
  meanQ ((ws.zip (lossVec ms logps)).map fun p => p.1 * p.2)

/-! ## Control flow of the tail of `learn` under non-finite values
(lines 157-164)

`Option ℚ` embeds IEEE values: `some q` a finite value, `none` a
non-finite one (NaN or ±Inf).  Arithmetic on a NaN operand yields NaN, so
`none` is absorbing, which is what the claim about NaN handling needs. -/

/-- IEEE multiplication restricted to the finite/non-finite distinction. -/
def oMul : Option ℚ → Option ℚ → Option ℚ
  | some a, some b => some (a * b)
  | _, _ => none

/-- IEEE addition restricted to the finite/non-finite distinction. -/
def oAdd : Option ℚ → Option ℚ → Option ℚ
  | some a, some b => some (a + b)
  | _, _ => none

/-- IEEE negation. -/
def oNeg : Option ℚ → Option ℚ
  | some a => some (-a)
  | none => none

/-- Sum reduction (`torch.sum`): NaN-contaminated input gives NaN output. -/
def oSum (xs : List (Option ℚ)) : Option ℚ := xs.foldl oAdd (some 0)

/-- `lossRow` lifted to possibly non-finite entries. -/
def lossRowN (m logp : List (Option ℚ)) : Option ℚ :=
  oNeg (oSum ((m.zip logp).map fun p => oMul p.1 p.2))

/-- `lossVec` lifted to possibly non-finite entries. -/
def lossVecN (ms logps : List (List (Option ℚ))) : List (Option ℚ) :=
  (ms.zip logps).map fun p => lossRowN p.1 p.2

/-- `(weights * loss).mean()` lifted to possibly non-finite entries (the
divisor, the batch size, is always finite). -/
def weightedMeanN (ws ls : List (Option ℚ)) : Option ℚ :=
  oMul (oSum ((ws.zip ls).map fun p => oMul p.1 p.2))
    (some (1 / ((ws.zip ls).length : ℚ)))

/-- The observable side effects of the tail of `learn`. -/
inductive LearnEffect where
  | zeroGrad
  | backward (v : Option ℚ)
  | optimiserStep
  | updatePriorities (ps : List (Option ℚ))
deriving DecidableEq

/-- Lines 157-164 of `learn` as a trace of effects:
`loss = -sum(m * log_ps_a, 1)`; `online_net.zero_grad()`;
`(weights * loss).mean().backward()`; `optimiser.step()`;
`mem.update_priorities(idxs, loss)`.  The source contains no conditional
between the loss computation and these calls: no NaN or Inf check appears
anywhere in `learn`. -/
def learnTailTrace (ms logps : List (List (Option ℚ)))
    (ws : List (Option ℚ)) : List LearnEffect :=
  [.zeroGrad, .backward (weightedMeanN ws (lossVecN ms logps)),
   .optimiserStep, .updatePriorities (lossVecN ms logps)]

/-! ## Checkpointing (`Agent.save` lines 170-172, `Agent.__init__` lines
44-61)

Parameter blobs are abstracted as natural numbers: `save`/`load` move them
around without inspecting them.  The environment-step and episode counters
live in the training harness, outside the `Agent` object, and are listed
here as part of the state needed to resume. -/

/-- Everything the design document requires a checkpoint to restore. -/
structure AgentResumeState where
  onlineParams : ℕ
  targetParams : ℕ
  optimiserState : ℕ
  envSteps : ℕ
  episodes : ℕ
deriving DecidableEq

/-- `Agent.save` line 172: `torch.save(self.online_net.state_dict(), path)`.
The checkpoint written holds the online parameters and nothing else. -/
def saveCkpt (s : AgentResumeState) : ℕ := s.onlineParams

/-- Resuming via `Agent.__init__` lines 44-61 with `args.model` pointing at
a checkpoint: `online_net.load_state_dict(torch.load(model))`, then
`update_target_net()` copies online into target (line 56 calling line 168);
the optimiser is constructed fresh (line 61), and the harness counters
restart from whatever fresh state the caller has. -/
def loadInit (ckpt : ℕ) (fresh : AgentResumeState) : AgentResumeState :=
  { onlineParams := ckpt
    targetParams := ckpt
    optimiserState := fresh.optimiserState
    envSteps := fresh.envSteps
    episodes := fresh.episodes }

/-! ## Helper lemmas about the degenerate-case index adjustment -/

theorem qfloor_le_qceil (b : ℚ) : qfloor b ≤ qceil b := by
  rw [qfloor_eq, qceil_eq]; exact Int.floor_le_ceil b

theorem qceil_le_qfloor_add_one (b : ℚ) : qceil b ≤ qfloor b + 1 := by
  rw [qfloor_eq, qceil_eq]; exact Int.ceil_le_floor_add_one b

theorem qfloor_nonneg {b : ℚ} (hb : 0 ≤ b) : 0 ≤ qfloor b := by
  rw [qfloor_eq]; exact Int.floor_nonneg.mpr hb

theorem qceil_nonneg {b : ℚ} (hb : 0 ≤ b) : 0 ≤ qceil b := by
  rw [qceil_eq]; exact Int.ceil_nonneg hb

theorem qfloor_le_of_le {b : ℚ} {z : ℤ} (hb : b ≤ (z : ℚ)) : qfloor b ≤ z := by
  rw [qfloor_eq]
  exact le_trans (Int.floor_le_floor hb) (le_of_eq (Int.floor_intCast z))

theorem qceil_le_of_le {b : ℚ} {z : ℤ} (hb : b ≤ (z : ℚ)) : qceil b ≤ z := by
  rw [qceil_eq]; exact Int.ceil_le.mpr hb

/-- When `l` and `u` agree, `b` sits exactly on the integer they name. -/
theorem qfloor_eq_self_of_eq_qceil {b : ℚ} (h : qfloor b = qceil b) :
    (qfloor b : ℚ) = b := by
  rw [qfloor_eq] at *
  rw [qceil_eq] at h
  exact le_antisymm (Int.floor_le b) (h ▸ Int.le_ceil b)

/-- After the two in-place fixes of lines 134-135, the pair `(l, u)` always
brackets a unit interval: `u - l = 1`.  Needs `b ∈ [0, atoms - 1]` (which
the clamp guarantees) and at least two atoms. -/
theorem uAdj_sub_lAdj {atoms : ℕ} {b : ℚ} (h2 : 2 ≤ atoms) (hb0 : 0 ≤ b)
    (hb1 : b ≤ (atoms : ℚ) - 1) : uAdj atoms b - lAdj b = 1 := by
  by_cases hfc : qfloor b = qceil b
  · by_cases hC : 0 < qceil b
    · have hl : lAdj b = qfloor b - 1 := if_pos ⟨hC, hfc⟩
      have hu : uAdj atoms b = qceil b := by
        unfold uAdj
        rw [if_neg]
        rintro ⟨-, h⟩
        rw [hl, hfc] at h
        omega
      omega
    · have hC0 : qceil b = 0 := le_antisymm (not_lt.mp hC) (qceil_nonneg hb0)
      have hl : lAdj b = qfloor b := by
        unfold lAdj
        rw [if_neg]
        rintro ⟨h, -⟩
        omega
      have hu : uAdj atoms b = qceil b + 1 := by
        unfold uAdj
        rw [if_pos]
        refine ⟨?_, by omega⟩
        rw [hl, hfc, hC0]
        omega
      omega
  · have hl : lAdj b = qfloor b := by
      unfold lAdj
      rw [if_neg]
      rintro ⟨-, h⟩
      exact hfc h
    have hu : uAdj atoms b = qceil b := by
      unfold uAdj
      rw [if_neg]
      rintro ⟨-, h⟩
      rw [hl] at h
      exact hfc h
    have h1 := qfloor_le_qceil b
    have h2 := qceil_le_qfloor_add_one b
    omega

/-- Support containment at the scalar level: both adjusted indices lie in
`[0, atoms - 1]` whenever `b ∈ [0, atoms - 1]` and there are at least two
atoms. -/
theorem adj_bounds {atoms : ℕ} {b : ℚ} (h2 : 2 ≤ atoms) (hb0 : 0 ≤ b)
    (hb1 : b ≤ (atoms : ℚ) - 1) :
    0 ≤ lAdj b ∧ lAdj b ≤ (atoms : ℤ) - 1 ∧
      0 ≤ uAdj atoms b ∧ uAdj atoms b ≤ (atoms : ℤ) - 1 := by
  have hbz : b ≤ (((atoms : ℤ) - 1 : ℤ) : ℚ) := by push_cast; exact hb1
  have hfl : qfloor b ≤ (atoms : ℤ) - 1 := qfloor_le_of_le hbz
  have hcl : qceil b ≤ (atoms : ℤ) - 1 := qceil_le_of_le hbz
  have hf0 : 0 ≤ qfloor b := qfloor_nonneg hb0
  have hc0 : 0 ≤ qceil b := qceil_nonneg hb0
  have hdiff := uAdj_sub_lAdj h2 hb0 hb1
  have hl0 : 0 ≤ lAdj b := by
    unfold lAdj
    split
    · omega
    · exact hf0
  have hlle : lAdj b ≤ (atoms : ℤ) - 1 := by
    unfold lAdj
    split
    · omega
    · exact hfl
  have hule : uAdj atoms b ≤ (atoms : ℤ) - 1 := by
    unfold uAdj
    split
    · next h => omega
    · exact hcl
  exact ⟨hl0, hlle, by omega, hule⟩

/-- The clamp of line 126 confines the continuous index `b` of line 131 to
`[0, atoms - 1]`, for arbitrary (finite) returns, non-terminal flags and
discounts. -/
theorem bAtom_bounds (cfg : SupportCfg) (h2 : 2 ≤ cfg.atoms)
    (hv : cfg.vmin < cfg.vmax) (ret nonterm discPow z : ℚ) :
    0 ≤ bAtom cfg ret nonterm discPow z ∧
      bAtom cfg ret nonterm discPow z ≤ (cfg.atoms : ℚ) - 1 := by
  have hn1 : (0 : ℚ) < (cfg.atoms : ℚ) - 1 := by
    have : (2 : ℚ) ≤ (cfg.atoms : ℚ) := by exact_mod_cast h2
    linarith
  have hdz : 0 < cfg.deltaZ := div_pos (sub_pos.mpr hv) hn1
  have h1 : cfg.vmin ≤ clampQ cfg.vmin cfg.vmax (ret + nonterm * discPow * z) := by
    unfold clampQ
    exact le_min (le_max_right _ _) hv.le
  have h2 : clampQ cfg.vmin cfg.vmax (ret + nonterm * discPow * z) ≤ cfg.vmax :=
    min_le_right _ _
  constructor
  · apply div_nonneg _ hdz.le
    unfold TzAtom
    linarith
  · have hb : bAtom cfg ret nonterm discPow z ≤
        (cfg.vmax - cfg.vmin) / cfg.deltaZ := by
      unfold bAtom TzAtom
      gcongr
    refine hb.trans_eq ?_
    unfold SupportCfg.deltaZ
    rw [div_div_eq_mul_div, mul_comm, mul_div_assoc,
      div_self (ne_of_gt (sub_pos.mpr hv)), mul_one]

/-! ## Helper lemmas about the scatter-add accumulation -/

theorem addAt_length (m : List ℚ) (i : ℕ) (v : ℚ) :
    (addAt m i v).length = m.length := List.length_set m i _

theorem addAt_sum {m : List ℚ} {i : ℕ} (v : ℚ) (h : i < m.length) :
    (addAt m i v).sum = m.sum + v := by
  induction m generalizing i with
  | nil => simp at h
  | cons a t ih =>
    cases i with
    | zero =>
      simp [addAt]
      ring
    | succ j =>
      have hj : j < t.length := by simpa using h
      have : addAt (a :: t) (j + 1) v = a :: addAt t j v := by
        simp [addAt]
      rw [this, List.sum_cons, List.sum_cons, ih hj]
      ring

theorem addAt_getD_ne (m : List ℚ) (i : ℕ) (v : ℚ) {k : ℕ} (h : i ≠ k) :
    (addAt m i v).getD k 0 = m.getD k 0 := by
  unfold addAt
  rw [List.getD_eq_getElem?_getD, List.getElem?_set_ne h,
    ← List.getD_eq_getElem?_getD]

theorem foldAdd_length (m : List ℚ) (pairs : List (ℕ × ℚ)) :
    (foldAdd m pairs).length = m.length := by
  induction pairs generalizing m with
  | nil => rfl
  | cons p t ih =>
    show (foldAdd (addAt m p.1 p.2) t).length = m.length
    rw [ih, addAt_length]

theorem foldAdd_sum {pairs : List (ℕ × ℚ)} {m : List ℚ}
    (h : ∀ p ∈ pairs, p.1 < m.length) :
    (foldAdd m pairs).sum = m.sum + (pairs.map Prod.snd).sum := by
  induction pairs generalizing m with
  | nil => simp [foldAdd]
  | cons p t ih =>
    have hp : p.1 < m.length := h p (List.mem_cons_self p t)
    have ht : ∀ q ∈ t, q.1 < (addAt m p.1 p.2).length := by
      intro q hq
      rw [addAt_length]
      exact h q (List.mem_cons_of_mem p hq)
    show (foldAdd (addAt m p.1 p.2) t).sum = m.sum + ((p :: t).map Prod.snd).sum
    rw [ih ht, addAt_sum p.2 hp, List.map_cons, List.sum_cons]
    ring

theorem foldAdd_getD_ne {pairs : List (ℕ × ℚ)} {k : ℕ} (m : List ℚ)
    (h : ∀ p ∈ pairs, p.1 ≠ k) :
    (foldAdd m pairs).getD k 0 = m.getD k 0 := by
  induction pairs generalizing m with
  | nil => rfl
  | cons p t ih =>
    show (foldAdd (addAt m p.1 p.2) t).getD k 0 = m.getD k 0
    rw [ih (addAt m p.1 p.2) fun q hq => h q (List.mem_cons_of_mem p hq),
      addAt_getD_ne m p.1 p.2 (h p (List.mem_cons_self p t))]

/-- Shorthand for `getD` at an in-range index. -/
theorem getD_eq_getElem (xs : List ℚ) (i : ℕ) (h : i < xs.length) :
    xs.getD i 0 = xs[i] := by
  rw [List.getD_eq_getElem?_getD, List.getElem?_eq_getElem h]
  rfl

/-- Both neighbour contributions of one source atom add up to the atom's
full probability: `p·(u - b) + p·(b - l) = p`. -/
theorem contrib_total {atoms : ℕ} {b : ℚ} (h2 : 2 ≤ atoms) (hb0 : 0 ≤ b)
    (hb1 : b ≤ (atoms : ℚ) - 1) (p : ℚ) :
    contribL atoms b p + contribU b p = p := by
  have hd : (uAdj atoms b : ℚ) - (lAdj b : ℚ) = 1 := by
    exact_mod_cast uAdj_sub_lAdj h2 hb0 hb1
  unfold contribL contribU
  have hr : p * ((uAdj atoms b : ℚ) - b) + p * (b - (lAdj b : ℚ)) =
      p * ((uAdj atoms b : ℚ) - (lAdj b : ℚ)) := by ring
  rw [hr, hd, mul_one]

/-! ## Helper lemmas about stable argmax and max -/

theorem exists_max (xs : List ℚ) (h : xs ≠ []) :
    ∃ x ∈ xs, ∀ y ∈ xs, y ≤ x := by
  induction xs with
  | nil => exact absurd rfl h
  | cons a t ih =>
    cases t with
    | nil =>
      refine ⟨a, List.mem_cons_self a [], ?_⟩
      intro y hy
      rw [List.mem_singleton.mp hy]
    | cons b t2 =>
      obtain ⟨x, hx, hmax⟩ := ih (List.cons_ne_nil b t2)
      by_cases hax : a ≤ x
      · refine ⟨x, List.mem_cons_of_mem a hx, ?_⟩
        intro y hy
        rcases List.mem_cons.mp hy with rfl | hyt
        · exact hax
        · exact hmax y hyt
      · refine ⟨a, List.mem_cons_self a _, ?_⟩
        intro y hy
        rcases List.mem_cons.mp hy with rfl | hyt
        · exact le_refl y
        · exact (hmax y hyt).trans (le_of_not_le hax)

theorem argmaxIdx_lt_length {xs : List ℚ} (h : xs ≠ []) :
    argmaxIdx xs < xs.length := by
  apply List.findIdx_lt_length_of_exists
  obtain ⟨x, hx, hmax⟩ := exists_max xs h
  refine ⟨x, hx, ?_⟩
  simpa using hmax

/-- The element picked by `argmaxIdx` dominates every element. -/
theorem argmaxIdx_le_all {xs : List ℚ} (h : xs ≠ []) :
    ∀ y ∈ xs, y ≤ xs.getD (argmaxIdx xs) 0 := by
  have hlt := argmaxIdx_lt_length h
  have hp := List.findIdx_getElem (w := hlt)
  rw [getD_eq_getElem xs _ hlt]
  simpa using hp

/-- Every index before `argmaxIdx` holds a strictly smaller value: the tie
among maximisers is broken toward the lowest index. -/
theorem lt_of_lt_argmaxIdx {xs : List ℚ} (h : xs ≠ []) {j : ℕ}
    (hj : j < argmaxIdx xs) :
    xs.getD j 0 < xs.getD (argmaxIdx xs) 0 := by
  have hjlen : j < xs.length := lt_trans hj (argmaxIdx_lt_length h)
  have hfalse := List.not_of_lt_findIdx hj
  simp only [List.all_eq_false, decide_eq_true_eq, not_le] at hfalse
  obtain ⟨y, hy, hgt⟩ := hfalse
  rw [getD_eq_getElem xs j hjlen]
  exact lt_of_lt_of_le hgt (argmaxIdx_le_all h y hy)

theorem le_foldl_max (l : List ℚ) (a : ℚ) : a ≤ l.foldl max a := by
  induction l generalizing a with
  | nil => exact le_refl a
  | cons x t ih => exact le_trans (le_max_left a x) (ih (max a x))

theorem mem_le_foldl_max (l : List ℚ) (a : ℚ) :
    ∀ y ∈ l, y ≤ l.foldl max a := by
  induction l generalizing a with
  | nil => intro y hy; simp at hy
  | cons x t ih =>
    intro y hy
    rcases List.mem_cons.mp hy with rfl | hyt
    · exact le_trans (le_max_right a y) (le_foldl_max t _)
    · exact ih (max a x) y hyt

theorem foldl_max_mem (l : List ℚ) (a : ℚ) :
    l.foldl max a = a ∨ l.foldl max a ∈ l := by
  induction l generalizing a with
  | nil => exact Or.inl rfl
  | cons x t ih =>
    have hfold : (x :: t).foldl max a = t.foldl max (max a x) := rfl
    rcases ih (max a x) with hcase | hcase
    · rcases max_choice a x with he | he
      · exact Or.inl (by rw [hfold, hcase, he])
      · exact Or.inr (by rw [hfold, hcase, he]; exact List.mem_cons_self x t)
    · exact Or.inr (by rw [hfold]; exact List.mem_cons_of_mem x hcase)

theorem listMax_mem {xs : List ℚ} (h : xs ≠ []) : listMax xs ∈ xs := by
  cases xs with
  | nil => exact absurd rfl h
  | cons x t =>
    rcases foldl_max_mem t x with hcase | hcase
    · rw [listMax, hcase]; exact List.mem_cons_self x t
    · exact List.mem_cons_of_mem x hcase

theorem le_listMax {xs : List ℚ} (y : ℚ) (hy : y ∈ xs) : y ≤ listMax xs := by
  cases xs with
  | nil => simp at hy
  | cons x t =>
    rcases List.mem_cons.mp hy with rfl | hyt
    · exact le_foldl_max t y
    · exact mem_le_foldl_max t x y hyt

/-! ## Claims -/

/-- Claim C2.  Support containment / index safety: for any configuration with at
least two atoms and `v_min < v_max`, and for all finite returns, discounts,
non-terminal flags and atom values (however extreme), both indices used by
the scatter-add — the adjusted `l` and `u` computed from the clamped `Tz` —
lie in `[0, num_atoms - 1]`, so no out-of-range write into the per-element
mass buffer ever occurs. -/
theorem projection_support_containment (cfg : SupportCfg)
    (h2 : 2 ≤ cfg.atoms) (hv : cfg.vmin < cfg.vmax)
    (ret nonterm discPow z : ℚ) :
    0 ≤ lAdj (bAtom cfg ret nonterm discPow z) ∧
      lAdj (bAtom cfg ret nonterm discPow z) ≤ (cfg.atoms : ℤ) - 1 ∧
      0 ≤ uAdj cfg.atoms (bAtom cfg ret nonterm discPow z) ∧
      uAdj cfg.atoms (bAtom cfg ret nonterm discPow z) ≤ (cfg.atoms : ℤ) - 1 := by
  obtain ⟨hb0, hb1⟩ := bAtom_bounds cfg h2 hv ret nonterm discPow z
  exact adj_bounds h2 hb0 hb1

/-- Witness for C2 at a concrete extreme input: `Tz` would be `1000000`,
far beyond `[v_min, v_max] = [-2, 2]`, yet the indices stay in `[0, 4]`. -/
theorem projection_support_containment_witness :
    (2 ≤ 5 ∧ (-2 : ℚ) < 2) ∧
      (0 ≤ lAdj (bAtom ⟨5, -2, 2⟩ 1000000 1 1 2) ∧
        lAdj (bAtom ⟨5, -2, 2⟩ 1000000 1 1 2) ≤ (5 : ℤ) - 1 ∧
        0 ≤ uAdj 5 (bAtom ⟨5, -2, 2⟩ 1000000 1 1 2) ∧
        uAdj 5 (bAtom ⟨5, -2, 2⟩ 1000000 1 1 2) ≤ (5 : ℤ) - 1) :=
  ⟨⟨by decide, by decide⟩,
    projection_support_containment ⟨5, -2, 2⟩ (by decide) (by decide)
      1000000 1 1 2⟩

/-- Claim C1.  Mass conservation of the projection: if the selected
target-network row is a probability distribution (entries nonnegative,
summing to 1), then after the Bellman backup, clamping, `l`/`u` index
adjustment and the two scatter-add accumulations, the projected row sums
to exactly 1 (real arithmetic). -/
theorem projection_mass_conservation (cfg : SupportCfg)
    (h2 : 2 ≤ cfg.atoms) (hv : cfg.vmin < cfg.vmax)
    (ret nonterm discPow : ℚ) (ps : List ℚ) (hlen : ps.length = cfg.atoms)
    (hpos : ∀ p ∈ ps, 0 ≤ p) (hsum : ps.sum = 1) :
    (projectRow cfg ret nonterm discPow ps).sum = 1 := by
  unfold projectRow scatterRow
  have hbmem : ∀ b ∈ cfg.supportZ.map (fun z => bAtom cfg ret nonterm discPow z),
      0 ≤ b ∧ b ≤ (cfg.atoms : ℚ) - 1 := by
    intro b hb
    obtain ⟨z, -, rfl⟩ := List.mem_map.mp hb
    exact bAtom_bounds cfg h2 hv ret nonterm discPow z
  have hzmem : ∀ bp ∈ (cfg.supportZ.map
        (fun z => bAtom cfg ret nonterm discPow z)).zip ps,
      0 ≤ bp.1 ∧ bp.1 ≤ (cfg.atoms : ℚ) - 1 :=
    fun bp hbp => hbmem bp.1 (List.of_mem_zip hbp).1
  have hidxL : ∀ q ∈ ((cfg.supportZ.map
        (fun z => bAtom cfg ret nonterm discPow z)).zip ps).map
        (fun bp => ((lAdj bp.1).toNat, contribL cfg.atoms bp.1 bp.2)),
      q.1 < cfg.atoms := by
    intro q hq
    obtain ⟨bp, hbp, rfl⟩ := List.mem_map.mp hq
    obtain ⟨hb0, hb1⟩ := hzmem bp hbp
    have hadj := adj_bounds h2 hb0 hb1
    omega
  have hidxU : ∀ q ∈ ((cfg.supportZ.map
        (fun z => bAtom cfg ret nonterm discPow z)).zip ps).map
        (fun bp => ((uAdj cfg.atoms bp.1).toNat, contribU bp.1 bp.2)),
      q.1 < cfg.atoms := by
    intro q hq
    obtain ⟨bp, hbp, rfl⟩ := List.mem_map.mp hq
    obtain ⟨hb0, hb1⟩ := hzmem bp hbp
    have hadj := adj_bounds h2 hb0 hb1
    omega
  rw [foldAdd_sum (by
    intro q hq
    rw [foldAdd_length, List.length_replicate]
    exact hidxU q hq)]
  rw [foldAdd_sum (by
    intro q hq
    rw [List.length_replicate]
    exact hidxL q hq)]
  rw [List.map_map, List.map_map]
  have hrep : (List.replicate cfg.atoms (0 : ℚ)).sum = 0 := by simp
  rw [hrep]
  have hcomb :
      (((cfg.supportZ.map (fun z => bAtom cfg ret nonterm discPow z)).zip ps).map
        (Prod.snd ∘ fun bp => ((lAdj bp.1).toNat, contribL cfg.atoms bp.1 bp.2))).sum +
      (((cfg.supportZ.map (fun z => bAtom cfg ret nonterm discPow z)).zip ps).map
        (Prod.snd ∘ fun bp => ((uAdj cfg.atoms bp.1).toNat, contribU bp.1 bp.2))).sum =
      (((cfg.supportZ.map (fun z => bAtom cfg ret nonterm discPow z)).zip ps).map
        Prod.snd).sum := by
    rw [← List.sum_map_add]
    congr 1
    apply List.map_congr_left
    intro bp hbp
    obtain ⟨hb0, hb1⟩ := hzmem bp hbp
    exact contrib_total h2 hb0 hb1 bp.2
  rw [zero_add, hcomb, List.map_snd_zip _ _ (by
    rw [List.length_map, SupportCfg.supportZ, linspace_length]
    exact le_of_eq hlen), hsum]

/-- Witness for C1: `num_atoms = 5`, `v_min = -2`, `v_max = 2`, return 1,
non-terminal 1, unit discount, all target mass on the first atom. -/
theorem projection_mass_conservation_witness :
    ((2 ≤ 5 ∧ (-2 : ℚ) < 2) ∧ (∀ p ∈ [(1 : ℚ), 0, 0, 0, 0], 0 ≤ p) ∧
        [(1 : ℚ), 0, 0, 0, 0].sum = 1) ∧
      (projectRow ⟨5, -2, 2⟩ 1 1 1 [1, 0, 0, 0, 0]).sum = 1 :=
  ⟨⟨⟨by decide, by decide⟩, by decide, by simp⟩,
    projection_mass_conservation ⟨5, -2, 2⟩ (by decide) (by decide) 1 1 1
      [1, 0, 0, 0, 0] (by decide) (by decide) (by simp)⟩

/-- Claim C4.  Degenerate-atom adjustment: when a projected coordinate `b` is an
exact integer (`floor b = ceil b`, the integer lying in `[0, atoms - 1]`),
the adjusted pair satisfies `l ≠ u` — the mass `p·(u - b) + p·(b - l) = p`
is fully deposited, never vanishing — and concretely: away from the left
boundary (`0 < b`) the pair becomes `(b - 1, b)`, and at the left boundary
(`b = 0`) it becomes `(0, 1)`; at the right boundary atom `b = atoms - 1`
the shift is the same `(b - 1, b)` one, clamped inside the support. -/
theorem degenerate_atom_adjustment {atoms : ℕ} {b : ℚ} (h2 : 2 ≤ atoms)
    (hint : qfloor b = qceil b) (hk0 : 0 ≤ qceil b)
    (hk1 : qceil b ≤ (atoms : ℤ) - 1) (p : ℚ) :
    lAdj b ≠ uAdj atoms b ∧
      contribL atoms b p + contribU b p = p ∧
      (0 < qceil b → lAdj b = qceil b - 1 ∧ uAdj atoms b = qceil b) ∧
      (qceil b = 0 → lAdj b = 0 ∧ uAdj atoms b = 1) := by
  have hbq : (qfloor b : ℚ) = b := qfloor_eq_self_of_eq_qceil hint
  have hb0 : 0 ≤ b := by
    rw [← hbq]
    exact_mod_cast hint ▸ hk0
  have hb1 : b ≤ (atoms : ℚ) - 1 := by
    rw [← hbq]
    have : (qfloor b : ℚ) ≤ (((atoms : ℤ) - 1 : ℤ) : ℚ) := by
      exact_mod_cast hint ▸ hk1
    push_cast at this
    linarith
  have hdiff := uAdj_sub_lAdj h2 hb0 hb1
  refine ⟨by omega, contrib_total h2 hb0 hb1 p, ?_, ?_⟩
  · intro hpos
    have hl : lAdj b = qceil b - 1 := by
      unfold lAdj
      rw [if_pos ⟨hpos, hint⟩, hint]
    exact ⟨hl, by omega⟩
  · intro hzero
    have hl : lAdj b = 0 := by
      unfold lAdj
      rw [if_neg (by omega), hint, hzero]
    exact ⟨hl, by omega⟩

/-- Witness for C4: three atoms, `b = 2` exactly on the right boundary
atom, unit source mass. -/
theorem degenerate_atom_adjustment_witness :
    ((2 ≤ 3 ∧ qfloor (2 : ℚ) = qceil (2 : ℚ) ∧ 0 ≤ qceil (2 : ℚ) ∧
        qceil (2 : ℚ) ≤ (3 : ℤ) - 1)) ∧
      (lAdj (2 : ℚ) ≠ uAdj 3 (2 : ℚ) ∧
        contribL 3 (2 : ℚ) 1 + contribU (2 : ℚ) 1 = 1 ∧
        (0 < qceil (2 : ℚ) →
          lAdj (2 : ℚ) = qceil (2 : ℚ) - 1 ∧ uAdj 3 (2 : ℚ) = qceil (2 : ℚ)) ∧
        (qceil (2 : ℚ) = 0 → lAdj (2 : ℚ) = 0 ∧ uAdj 3 (2 : ℚ) = 1)) :=
  ⟨⟨by decide, by decide, by decide, by decide⟩,
    degenerate_atom_adjustment (by decide) (by decide) (by decide) (by decide) 1⟩

/-- Claim C3.  Double-DQN cross-network action selection: the action used to
index the target network's distribution is the stable argmax (maximal
expected value, lowest index among ties) of the online network's expected
next-state values `Q(a) = Σ_i z_i · P_online(next_state, a)[i]`, and the
row handed to the projection is the target network's distribution at that
online-selected action. -/
theorem double_dqn_action_selection (s : List ℚ) (pOnline pTarget : List (List ℚ))
    (h : pOnline ≠ []) :
    argmaxIdx (actionQs s pOnline) < pOnline.length ∧
      (∀ j ∈ actionQs s pOnline,
        j ≤ (actionQs s pOnline).getD (argmaxIdx (actionQs s pOnline)) 0) ∧
      (∀ j < argmaxIdx (actionQs s pOnline),
        (actionQs s pOnline).getD j 0 <
          (actionQs s pOnline).getD (argmaxIdx (actionQs s pOnline)) 0) ∧
      selectTargetDist s pOnline pTarget =
        pTarget.getD (argmaxIdx (actionQs s pOnline)) [] := by
  have hne : actionQs s pOnline ≠ [] := by
    unfold actionQs
    simpa using h
  refine ⟨?_, argmaxIdx_le_all hne, fun j hj => lt_of_lt_argmaxIdx hne hj, rfl⟩
  have := argmaxIdx_lt_length hne
  rwa [actionQs, List.length_map] at this

/-- Witness for C3: two actions whose online-expected values differ, with a
target network that would itself prefer the other action. -/
theorem double_dqn_action_selection_witness :
    ([[(0 : ℚ), 1], [1, 0]] ≠ ([] : List (List ℚ))) ∧
      (argmaxIdx (actionQs [0, 1] [[(0 : ℚ), 1], [1, 0]]) <
          ([[(0 : ℚ), 1], [1, 0]] : List (List ℚ)).length ∧
        (∀ j ∈ actionQs [0, 1] [[(0 : ℚ), 1], [1, 0]],
          j ≤ (actionQs [0, 1] [[(0 : ℚ), 1], [1, 0]]).getD
            (argmaxIdx (actionQs [0, 1] [[(0 : ℚ), 1], [1, 0]])) 0) ∧
        (∀ j < argmaxIdx (actionQs [0, 1] [[(0 : ℚ), 1], [1, 0]]),
          (actionQs [0, 1] [[(0 : ℚ), 1], [1, 0]]).getD j 0 <
            (actionQs [0, 1] [[(0 : ℚ), 1], [1, 0]]).getD
              (argmaxIdx (actionQs [0, 1] [[(0 : ℚ), 1], [1, 0]])) 0) ∧
        selectTargetDist [0, 1] [[(0 : ℚ), 1], [1, 0]] [[1, 0], [0, 1]] =
          [[(1 : ℚ), 0], [0, 1]].getD
            (argmaxIdx (actionQs [0, 1] [[(0 : ℚ), 1], [1, 0]])) []) :=
  ⟨by decide,
    double_dqn_action_selection [0, 1] [[0, 1], [1, 0]] [[1, 0], [0, 1]]
      (by decide)⟩

/-- Claim C10.  Consistency of greedy action and value estimate: for one state
and one fixed realization of the online network's output, `evaluate_q`
returns exactly the expected value at the action `act` returns — both are
computed from the same `(probabilities * support).sum` row, one taking
`argmax`, the other `max`. -/
theorem act_evaluateQ_consistent (s : List ℚ) (probs : List (List ℚ))
    (h : probs ≠ []) :
    evaluateQ s probs = (actionQs s probs).getD (act s probs) 0 := by
  have hne : actionQs s probs ≠ [] := by
    unfold actionQs
    simpa using h
  unfold evaluateQ act
  apply le_antisymm
  · have hmem := listMax_mem hne
    exact argmaxIdx_le_all hne _ hmem
  · have hsel : (actionQs s probs).getD (argmaxIdx (actionQs s probs)) 0 ∈
        actionQs s probs := by
      rw [getD_eq_getElem _ _ (argmaxIdx_lt_length hne)]
      exact List.getElem_mem _
    exact le_listMax _ hsel

/-- Witness for C10 on a concrete two-action state. -/
theorem act_evaluateQ_consistent_witness :
    ([[(0 : ℚ), 1], [1, 0]] ≠ ([] : List (List ℚ))) ∧
      evaluateQ [0, 1] [[(0 : ℚ), 1], [1, 0]] =
        (actionQs [0, 1] [[(0 : ℚ), 1], [1, 0]]).getD
          (act [0, 1] [[(0 : ℚ), 1], [1, 0]]) 0 :=
  ⟨by decide, act_evaluateQ_consistent [0, 1] [[0, 1], [1, 0]] (by decide)⟩

theorem list_sum_nonpos {l : List ℚ} (h : ∀ x ∈ l, x ≤ 0) : l.sum ≤ 0 := by
  induction l with
  | nil => simp
  | cons x t ih =>
    rw [List.sum_cons]
    have hx := h x (List.mem_cons_self x t)
    have ht := ih fun y hy => h y (List.mem_cons_of_mem x hy)
    linarith

/-- Claim C6.  Priority-update values: the priorities reported to the replay
memory are the raw per-sample losses, which — the projected rows being
nonnegative and the log-probabilities nonpositive — equal their absolute
magnitudes `|loss_j|` (never negative), and carry no importance-weight
scaling (the weights only enter the backpropagated scalar, the mean of
`w_j · loss_j`). -/
theorem priority_update_values (ms logps : List (List ℚ)) (ws : List ℚ)
    (hm : ∀ r ∈ ms, ∀ x ∈ r, 0 ≤ x) (hl : ∀ r ∈ logps, ∀ x ∈ r, x ≤ 0) :
    prioritiesOut ms logps = lossVec ms logps ∧
      prioritiesOut ms logps = (lossVec ms logps).map (fun x => |x|) ∧
      backpropScalar ws ms logps =
        (((ws.zip (lossVec ms logps)).map fun p => p.1 * p.2).sum) /
          (((ws.zip (lossVec ms logps)).length : ℚ)) := by
  refine ⟨rfl, ?_, by rw [backpropScalar, meanQ, List.length_map]⟩
  rw [prioritiesOut]
  conv_lhs => rw [show lossVec ms logps = (lossVec ms logps).map id from
    (List.map_id _).symm]
  apply List.map_congr_left
  intro x hx
  obtain ⟨mp, hmp, rfl⟩ := List.mem_map.mp hx
  have hnonneg : 0 ≤ lossRow mp.1 mp.2 := by
    obtain ⟨hm1, hl1⟩ := List.of_mem_zip hmp
    rw [lossRow, neg_nonneg]
    apply list_sum_nonpos
    intro y hy
    obtain ⟨q, hq, rfl⟩ := List.mem_map.mp hy
    obtain ⟨hq1, hq2⟩ := List.of_mem_zip hq
    exact mul_nonpos_of_nonneg_of_nonpos (hm mp.1 hm1 q.1 hq1)
      (hl mp.2 hl1 q.2 hq2)
  rw [id_eq, abs_of_nonneg hnonneg]

/-- Witness for C6 on a one-element batch: all-mass-on-one-atom target row,
log-probabilities `≤ 0`, importance weight 1. -/
theorem priority_update_values_witness :
    ((∀ r ∈ [[(1 : ℚ), 0]], ∀ x ∈ r, 0 ≤ x) ∧
        (∀ r ∈ [[(-1 : ℚ), 0]], ∀ x ∈ r, x ≤ 0)) ∧
      (prioritiesOut [[(1 : ℚ), 0]] [[-1, 0]] =
          lossVec [[(1 : ℚ), 0]] [[-1, 0]] ∧
        prioritiesOut [[(1 : ℚ), 0]] [[-1, 0]] =
          (lossVec [[(1 : ℚ), 0]] [[-1, 0]]).map (fun x => |x|) ∧
        backpropScalar [1] [[(1 : ℚ), 0]] [[-1, 0]] =
          ((([(1 : ℚ)].zip (lossVec [[(1 : ℚ), 0]] [[-1, 0]])).map
            fun p => p.1 * p.2).sum) /
            ((([(1 : ℚ)].zip (lossVec [[(1 : ℚ), 0]] [[-1, 0]])).length : ℚ))) :=
  ⟨⟨by decide, by decide⟩,
    priority_update_values [[1, 0]] [[-1, 0]] [1] (by decide) (by decide)⟩

/-- Claim C9.  Terminal-transition backup: when the non-terminal flag is 0, the
discounted support term of the Bellman backup vanishes, so `Tz_i` equals
the clamped n-step return for every atom `i`, and the projected row is zero
everywhere except at the (adjusted) lower and upper neighbour slots of that
single clamped position. -/
theorem terminal_transition_backup (cfg : SupportCfg) (ret discPow : ℚ)
    (ps : List ℚ) :
    (∀ z, TzAtom cfg.vmin cfg.vmax ret 0 discPow z =
      clampQ cfg.vmin cfg.vmax ret) ∧
      (∀ k : ℕ,
        k ≠ (lAdj ((clampQ cfg.vmin cfg.vmax ret - cfg.vmin) /
          cfg.deltaZ)).toNat →
        k ≠ (uAdj cfg.atoms ((clampQ cfg.vmin cfg.vmax ret - cfg.vmin) /
          cfg.deltaZ)).toNat →
        (projectRow cfg ret 0 discPow ps).getD k 0 = 0) := by
  have hTz : ∀ z, TzAtom cfg.vmin cfg.vmax ret 0 discPow z =
      clampQ cfg.vmin cfg.vmax ret := by
    intro z
    rw [TzAtom, zero_mul, zero_mul, add_zero]
  have hb : ∀ z, bAtom cfg ret 0 discPow z =
      (clampQ cfg.vmin cfg.vmax ret - cfg.vmin) / cfg.deltaZ := by
    intro z
    rw [bAtom, hTz]
  refine ⟨hTz, ?_⟩
  intro k hkl hku
  rw [projectRow, scatterRow]
  rw [foldAdd_getD_ne _ (by
    intro q hq
    obtain ⟨bp, hbp, rfl⟩ := List.mem_map.mp hq
    obtain ⟨hbmem, -⟩ := List.of_mem_zip hbp
    obtain ⟨z, -, hz⟩ := List.mem_map.mp hbmem
    show (uAdj cfg.atoms bp.1).toNat ≠ k
    rw [← hz, hb z]
    exact fun he => hku he.symm)]
  rw [foldAdd_getD_ne _ (by
    intro q hq
    obtain ⟨bp, hbp, rfl⟩ := List.mem_map.mp hq
    obtain ⟨hbmem, -⟩ := List.of_mem_zip hbp
    obtain ⟨z, -, hz⟩ := List.mem_map.mp hbmem
    show (lAdj bp.1).toNat ≠ k
    rw [← hz, hb z]
    exact fun he => hkl he.symm)]
  rw [List.getD_eq_getElem?_getD, List.getElem?_replicate]
  split <;> rfl

/-- Claim C5 counterexample: with a NaN in the probabilities (hence in the loss),
the tail of `learn` still performs `zero_grad`, `backward`, the optimizer
step and the priority update — there is no abort and no check. -/
theorem numeric_instability_counterexample :
    lossVecN [[none]] [[none]] = [none] ∧
      learnTailTrace [[none]] [[none]] [some 1] =
        [.zeroGrad, .backward none, .optimiserStep,
          .updatePriorities [none]] :=
  ⟨rfl, rfl⟩

/-- Claim C5 amended: `learn` contains no NaN/Inf detection at all.  For every
input — NaN-contaminated or not — the optimizer step and the priority
update are executed, and the (possibly non-finite) loss values are passed
through to `backward` and to the replay memory unchanged, neither clamped
nor zero-filled. -/
theorem numeric_instability_no_abort (ms logps : List (List (Option ℚ)))
    (ws : List (Option ℚ)) :
    learnTailTrace ms logps ws =
      [.zeroGrad, .backward (weightedMeanN ws (lossVecN ms logps)),
        .optimiserStep, .updatePriorities (lossVecN ms logps)] ∧
      LearnEffect.optimiserStep ∈ learnTailTrace ms logps ws ∧
      LearnEffect.updatePriorities (lossVecN ms logps) ∈
        learnTailTrace ms logps ws := by
  refine ⟨rfl, ?_, ?_⟩ <;> simp [learnTailTrace]

/-- Claim C7 counterexample: two agent states that differ only in optimiser
state and step/episode counters write identical checkpoints, and resuming
from the checkpoint cannot recover those fields — `save` persists the
online network parameters alone. -/
theorem checkpoint_completeness_counterexample :
    saveCkpt ⟨5, 5, 1, 10, 3⟩ = saveCkpt ⟨5, 5, 2, 99, 7⟩ ∧
      (loadInit (saveCkpt ⟨5, 5, 1, 10, 3⟩) ⟨0, 0, 0, 0, 0⟩).optimiserState ≠
        (⟨5, 5, 1, 10, 3⟩ : AgentResumeState).optimiserState ∧
      (loadInit (saveCkpt ⟨5, 5, 1, 10, 3⟩) ⟨0, 0, 0, 0, 0⟩).envSteps ≠
        (⟨5, 5, 1, 10, 3⟩ : AgentResumeState).envSteps ∧
      (loadInit (saveCkpt ⟨5, 5, 1, 10, 3⟩) ⟨0, 0, 0, 0, 0⟩).episodes ≠
        (⟨5, 5, 1, 10, 3⟩ : AgentResumeState).episodes :=
  ⟨rfl, by decide, by decide, by decide⟩

/-- Claim C7 amended: the checkpoint persists only the online network
parameters.  On load the target network is re-derived from them by the
constructor's `update_target_net()` sync, but the optimiser state and the
environment-step and episode counters are not persisted: they restart from
the fresh values of the resuming process. -/
theorem checkpoint_persists_online_only (s fresh : AgentResumeState) :
    saveCkpt s = s.onlineParams ∧
      (loadInit (saveCkpt s) fresh).onlineParams = s.onlineParams ∧
      (loadInit (saveCkpt s) fresh).targetParams = s.onlineParams ∧
      (loadInit (saveCkpt s) fresh).optimiserState = fresh.optimiserState ∧
      (loadInit (saveCkpt s) fresh).envSteps = fresh.envSteps ∧
      (loadInit (saveCkpt s) fresh).episodes = fresh.episodes :=
  ⟨rfl, rfl, rfl, rfl, rfl, rfl⟩

/-- Claim C8 counterexample: construction does not validate its parameters.
With `v_min = v_max = 0` (violating `v_min < v_max`) it succeeds instead
of failing, and with `num_atoms = 1 < 2` it raises Python's
`ZeroDivisionError` from `delta_z = (V_max - V_min) / (atoms - 1)`, not an
`InvalidConfiguration` error. -/
theorem support_validation_counterexample :
    (makeSupport 5 0 0).isOk = true ∧
      makeSupport 1 0 1 = .error .zeroDivision :=
  ⟨rfl, rfl⟩

/-- Claim C8 amended: construction performs no validation (invalid parameters
are not rejected with `InvalidConfiguration`); but whenever
`num_atoms ≥ 2` and `v_min < v_max` it succeeds and the grid satisfies the
stated contract: `delta_z = (v_max - v_min)/(num_atoms - 1)` and the atom
values are evenly spaced with step `delta_z`, strictly increasing, with
first element `v_min` and last element `v_max`; construction is a pure
function, deterministic by definition. -/
theorem support_construction (n : ℕ) (vmin vmax : ℚ) (h2 : 2 ≤ n)
    (hv : vmin < vmax) :
    ∃ g : SupportGrid, makeSupport n vmin vmax = .ok g ∧
      g.dz = (vmax - vmin) / ((n : ℚ) - 1) ∧
      g.values.length = n ∧
      g.values.getD 0 0 = vmin ∧
      g.values.getD (n - 1) 0 = vmax ∧
      (∀ i, i + 1 < n →
        g.values.getD (i + 1) 0 = g.values.getD i 0 + g.dz) ∧
      (∀ i, i + 1 < n → g.values.getD i 0 < g.values.getD (i + 1) 0) := by
  have hn1 : n ≠ 1 := by omega
  have hnq : ((n : ℚ) - 1) ≠ 0 := by
    have : (2 : ℚ) ≤ (n : ℚ) := by exact_mod_cast h2
    linarith
  have hnq0 : (0 : ℚ) < (n : ℚ) - 1 := by
    have : (2 : ℚ) ≤ (n : ℚ) := by exact_mod_cast h2
    linarith
  refine ⟨⟨linspace vmin vmax n, (vmax - vmin) / ((n : ℚ) - 1)⟩,
    by rw [makeSupport, if_neg hn1], rfl, linspace_length vmin vmax n,
    ?_, ?_, ?_, ?_⟩
  · rw [linspace_getD vmin vmax n hn1 0 (by omega)]
    push_cast
    ring
  · rw [linspace_getD vmin vmax n hn1 (n - 1) (by omega)]
    rw [Nat.cast_sub (by omega), Nat.cast_one]
    field_simp
  · intro i hi
    rw [linspace_getD vmin vmax n hn1 (i + 1) hi,
      linspace_getD vmin vmax n hn1 i (by omega)]
    push_cast
    field_simp
    ring
  · intro i hi
    rw [linspace_getD vmin vmax n hn1 (i + 1) hi,
      linspace_getD vmin vmax n hn1 i (by omega)]
    have hstep : ((i : ℚ) + 1) * (vmax - vmin) / ((n : ℚ) - 1) =
        (i : ℚ) * (vmax - vmin) / ((n : ℚ) - 1) +
          (vmax - vmin) / ((n : ℚ) - 1) := by
      field_simp
      ring
    push_cast
    rw [hstep]
    have : 0 < (vmax - vmin) / ((n : ℚ) - 1) :=
      div_pos (sub_pos.mpr hv) hnq0
    linarith

/-- Witness for the amended C8 at `num_atoms = 5`, `v_min = -2`,
`v_max = 2`. -/
theorem support_construction_witness :
    (2 ≤ 5 ∧ (-2 : ℚ) < 2) ∧
      (∃ g : SupportGrid, makeSupport 5 (-2) 2 = .ok g ∧
        g.dz = ((2 : ℚ) - (-2)) / ((5 : ℚ) - 1) ∧
        g.values.length = 5 ∧
        g.values.getD 0 0 = -2 ∧
        g.values.getD (5 - 1) 0 = 2 ∧
        (∀ i, i + 1 < 5 →
          g.values.getD (i + 1) 0 = g.values.getD i 0 + g.dz) ∧
        (∀ i, i + 1 < 5 → g.values.getD i 0 < g.values.getD (i + 1) 0)) :=
  ⟨⟨by decide, by decide⟩, support_construction 5 (-2) 2 (by decide) (by decide)⟩

end RainbowAgent
